import Mathlib

/-!
Verification of the anonymizer's core components (src/main.py), shallowly
embedded in Lean.  Python strings are modelled as `List Char`; the Python
functions of `TextAnonymizer._chunk_text`, `OllamaAnonymizationWorker.run`,
`OllamaAnonymizationWorker._stream_ollama` and `OllamaValidateWorker.run`
are translated definition by definition below.
-/

/-- Python strings, modelled as lists of characters. -/
abbrev PyStr := List Char

/-- Whitespace characters recognised by Python `str.strip()` (ASCII range). -/
def isPySpace (c : Char) : Bool :=
  c == ' ' || c == '\t' || c == '\n' || c == '\r' || c == '\x0b' || c == '\x0c'

/-- Python `s.strip()`: drop whitespace from both ends. -/
def pyStrip (s : PyStr) : PyStr :=
  ((s.dropWhile isPySpace).reverse.dropWhile isPySpace).reverse

/-- Python `s.split(sep)` for a one-character separator: splits at every
occurrence, keeping empty pieces; the empty string gives `[""]`. -/
def pySplit (sep : Char) (s : PyStr) : List PyStr :=
  s.foldr
    (fun c acc =>
      match acc with
      | r :: rs => if c == sep then [] :: r :: rs else (c :: r) :: rs
      | [] => [[c]])
    [[]]

/-- Python `s.startswith(p)`. -/
def pyStartsWith : PyStr → PyStr → Bool
  | [], _ => true
  | _ :: _, [] => false
  | p :: ps, c :: cs => p == c && pyStartsWith ps cs

/-- Python `"\n".join(lines)`. -/
def joinNL : List PyStr → PyStr
  | [] => []
  | [l] => l
  | l :: l2 :: ls => l ++ '\n' :: joinNL (l2 :: ls)

/-- Python truthiness-based `a or b` on strings: `b` when `a` is empty. -/
def pyOr (a b : PyStr) : PyStr :=
  if a.isEmpty then b else a

/-! ## Chunker (`TextAnonymizer._chunk_text`, src/main.py lines 459-474) -/

/-- Header test of `_chunk_text`:
`line.strip().startswith("#") and line.strip() != "#"`. -/
def isHeaderLine (line : PyStr) : Bool :=
  pyStartsWith ['#'] (pyStrip line) && pyStrip line != ['#']

/-- The scan loop of `_chunk_text`: walks the lines carrying the accumulated
current-chunk lines `cur`; on a header line the accumulated chunk (if any)
is closed as `"\n".join(cur).strip()` and a new chunk starts at the header
line; the final accumulated chunk is closed after the scan.  Returns the
closed chunks together with the `found_header` flag. -/
def chunkScan : List PyStr → List PyStr → List PyStr × Bool
  | [], cur => (if cur.isEmpty then [] else [pyStrip (joinNL cur)], false)
  | line :: rest, cur =>
    if isHeaderLine line then
      ((if cur.isEmpty then [] else [pyStrip (joinNL cur)]) ++ (chunkScan rest [line]).1,
       true)
    else
      chunkScan rest (cur ++ [line])

/-- `TextAnonymizer._chunk_text`: split into lines, scan for header-delimited
chunks, drop chunks whose trimmed content is empty; if no header was found,
return the trimmed whole text as a single chunk (or nothing when blank). -/
def chunk_text (text : PyStr) : List PyStr :=
  let lines := pySplit '\n' text
  let scanned := chunkScan lines []
  let filtered := scanned.1.filter fun c => !(pyStrip c).isEmpty
  if scanned.2 then filtered
  else if (pyStrip text).isEmpty then [] else [pyStrip text]

/-- The line groups underlying the scan: the partition of the lines into the
contiguous runs that `chunkScan` closes into chunks. -/
def headerGroups : List PyStr → List PyStr → List (List PyStr)
  | [], cur => if cur.isEmpty then [] else [cur]
  | line :: rest, cur =>
    if isHeaderLine line then
      (if cur.isEmpty then [] else [cur]) ++ headerGroups rest [line]
    else
      headerGroups rest (cur ++ [line])

/-- Line sequence of a chunk list: each chunk split back into its lines. -/
def linesOfChunks (cs : List PyStr) : List PyStr :=
  (cs.map (pySplit '\n')).flatten

/-! ## Streaming read (`OllamaAnonymizationWorker._stream_ollama`, lines 110-140)

Each physical line of the streamed HTTP response is modelled after the
worker's own parse step: `none` for a line that is empty or fails to parse
as JSON (both are skipped with `continue`), `some (piece, done)` for a
parsed object carrying the incremental `response` fragment and the `done`
completion flag. -/

/-- One line of the streamed response, as the worker sees it after parsing. -/
abbrev LineObj := Option (PyStr × Bool)

/-- The fragment-collecting loop of `_stream_ollama`: per line, first the
stop flag is consulted (observation `stop t` at the t-th check), empty or
unparsable lines are skipped, a non-empty fragment is appended, and the
loop breaks after the first object whose `done` flag is set. -/
def streamParts (stop : Nat → Bool) : Nat → List LineObj → List PyStr
  | _, [] => []
  | t, l :: rest =>
    if stop t then []
    else
      match l with
      | none => streamParts stop (t + 1) rest
      | some (piece, done) =>
        (if piece.isEmpty then [] else [piece]) ++
          (if done then [] else streamParts stop (t + 1) rest)

/-- `_stream_ollama`: collect the fragments and return `"".join(parts).strip()`. -/
def streamOllama (stop : Nat → Bool) (lines : List LineObj) : PyStr :=
  pyStrip (streamParts stop 0 lines).flatten

/-- Spec-side description of the stream contents (for comparison with
`streamOllama`): the fragments in arrival order up to and including the
first object whose completion flag is set. -/
def fragmentsUntilDone : List LineObj → List PyStr
  | [] => []
  | none :: rest => fragmentsUntilDone rest
  | some (piece, done) :: rest =>
    piece :: (if done then [] else fragmentsUntilDone rest)

/-! ## Anonymization worker (`OllamaAnonymizationWorker.run`, lines 142-168) -/

/-- The backend interaction for one chunk: either the request raises
(`Except.error` with the exception message) or it yields a parsed line
stream for `_stream_ollama` to consume. -/
abbrev BackendResp := Except PyStr (List LineObj)

/-- Signals emitted by the anonymization worker, in emission order. -/
inductive WEvent where
  | progress (cur total : Nat)
  | chunkProcessed (orig anon : PyStr)
  | errorOccurred (idx : Nat) (msg : PyStr)
  | finished (out : List PyStr)
  deriving DecidableEq

/-- The chunk loop of `run`: for the chunk at 0-based index `k` the stop
flag is checked first (observation `stopAt k`); on a backend error the
original chunk is substituted and a per-chunk error is emitted; then
`out.append(text or chunk)`, `chunk_processed` and `progress (k+1, total)`
follow.  Returns the accumulated outputs and the emitted events. -/
def runLoop (resp : Nat → BackendResp) (stopAt : Nat → Bool)
    (stopLine : Nat → Nat → Bool) (total : Nat) :
    List PyStr → Nat → List PyStr → List PyStr × List WEvent
  | [], _, out => (out, [])
  | chunk :: rest, k, out =>
    if stopAt k then (out, [])
    else
      match resp k with
      | .ok ls =>
        let text := streamOllama (stopLine k) ls
        let o := pyOr text chunk
        let r := runLoop resp stopAt stopLine total rest (k + 1) (out ++ [o])
        (r.1, .chunkProcessed chunk o :: .progress (k + 1) total :: r.2)
      | .error e =>
        let text := chunk
        let o := pyOr text chunk
        let r := runLoop resp stopAt stopLine total rest (k + 1) (out ++ [o])
        (r.1, .errorOccurred (k + 1) e :: .chunkProcessed chunk o :: .progress (k + 1) total :: r.2)

/-- `OllamaAnonymizationWorker.run`: run the chunk loop, then emit
`finished(out)` unconditionally (line 166 of src/main.py). -/
def runWorker (resp : Nat → BackendResp) (stopAt : Nat → Bool)
    (stopLine : Nat → Nat → Bool) (chunks : List PyStr) : List WEvent :=
  let r := runLoop resp stopAt stopLine chunks.length chunks 0 []
  r.2 ++ [.finished r.1]

/-- The output the worker produces for the chunk at index `k`. -/
def procOne (resp : Nat → BackendResp) (stopLine : Nat → Nat → Bool)
    (k : Nat) (chunk : PyStr) : PyStr :=
  match resp k with
  | .ok ls => pyOr (streamOllama (stopLine k) ls) chunk
  | .error _ => pyOr chunk chunk

/-- Outputs of an uncancelled run over the chunks starting at index `k`. -/
def outsFrom (resp : Nat → BackendResp) (stopLine : Nat → Nat → Bool) :
    List PyStr → Nat → List PyStr
  | [], _ => []
  | c :: rest, k => procOne resp stopLine k c :: outsFrom resp stopLine rest (k + 1)

/-- Loop events of an uncancelled run over the chunks starting at index `k`. -/
def evsFrom (resp : Nat → BackendResp) (stopLine : Nat → Nat → Bool)
    (total : Nat) : List PyStr → Nat → List WEvent
  | [], _ => []
  | c :: rest, k =>
    (match resp k with
     | .ok _ =>
       [WEvent.chunkProcessed c (procOne resp stopLine k c),
        WEvent.progress (k + 1) total]
     | .error e =>
       [WEvent.errorOccurred (k + 1) e,
        WEvent.chunkProcessed c (procOne resp stopLine k c),
        WEvent.progress (k + 1) total]) ++ evsFrom resp stopLine total rest (k + 1)

/-- The progress pairs reported over a trace. -/
def progressPairs (evs : List WEvent) : List (Nat × Nat) :=
  evs.filterMap fun e =>
    match e with
    | .progress c t => some (c, t)
    | _ => none

/-- The `(original, anonymized)` pairs of the `chunk_processed` signals of a
trace: one such signal follows every processed chunk. -/
def processedPairs (evs : List WEvent) : List (PyStr × PyStr) :=
  evs.filterMap fun e =>
    match e with
    | .chunkProcessed o a => some (o, a)
    | _ => none

/-- Number of chunks the loop processes before the stop flag is observed. -/
def procCount (stopAt : Nat → Bool) : List PyStr → Nat → Nat
  | [], _ => 0
  | _ :: rest, k => if stopAt k then 0 else procCount stopAt rest (k + 1) + 1

/-! ## Validation worker (`OllamaValidateWorker.run`, lines 43-89) and the
start gate of the UI (`_init_ui` line 318, `_on_model_validated`,
`_start_anonymization`). -/

/-- Outcome of the `/api/show` existence check. -/
inductive ShowOutcome where
  | ok
  | notFound
  | httpError
  | unreachable
  deriving DecidableEq

/-- Body of the inner try of `OllamaValidateWorker.run`: a 404 raises a
model-not-found error, any other non-success status or network failure
raises as well. -/
def showStep (m : PyStr) (s : ShowOutcome) : Except PyStr Unit :=
  match s with
  | .ok => .ok ()
  | .notFound => .error m
  | .httpError => .error []
  | .unreachable => .error []

/-- Signals of the validation worker: its own `validated` / `error`
channels, distinct from the anonymization worker's `WEvent`s. -/
inductive VEvent where
  | validated (model : PyStr)
  | error (msg : PyStr)
  deriving DecidableEq

/-- `OllamaValidateWorker.run`: the existence check's result is discarded
(`except Exception: pass`), then after a cancellation check the warm-up
generate runs; its failure is emitted on the `error` channel, its success
(after a second cancellation check) on the `validated` channel. -/
def validateRun (m : PyStr) (show1 : ShowOutcome) (cancel1 cancel2 : Bool)
    (gen : Except PyStr Unit) : List VEvent :=
  let _ := showStep m show1
  if cancel1 then []
  else
    match gen with
    | .error e => [VEvent.error e]
    | .ok _ => if cancel2 then [] else [VEvent.validated m]

/-- Body of the warm-up `/api/generate` request of the validation worker. -/
structure GenRequest where
  model : PyStr
  prompt : PyStr
  stream : Bool
  num_predict : Nat
  keep_alive : PyStr
  deriving DecidableEq

/-- The warm-up request: `"ping"`, non-streamed, `num_predict = 8`. -/
def warmupRequest (m : PyStr) : GenRequest :=
  { model := m, prompt := "ping".toList, stream := false, num_predict := 8,
    keep_alive := "10m".toList }

/-- Timeout (seconds) of the warm-up generate request. -/
def warmupTimeout : Nat := 180

/-- Timeout (seconds) of the `/api/show` existence check. -/
def showTimeout : Nat := 60

/-- Python `s.lower()` for the characters that occur here (ASCII case). -/
def pyLower (s : PyStr) : PyStr :=
  s.map Char.toLower

/-- Python `needle in haystack`: contiguous-substring test. -/
def pyContains (needle : PyStr) : PyStr → Bool
  | [] => pyStartsWith needle []
  | s@(_ :: rest) => pyStartsWith needle s || pyContains needle rest

/-- The widgets of the main window that gate the start of a job: the model
status label (`self.model_status`) and the Start button's enabled flag
(`self.process_btn`). -/
structure UIState where
  statusText : PyStr
  processEnabled : Bool
  deriving DecidableEq

/-- Startup state of `_init_ui`: the label reads "No model validated"
(line 276) and the Start button is disabled (line 318). -/
def initialUI : UIState :=
  { statusText := "No model validated".toList, processEnabled := false }

/-- The UI handlers that touch the status label or the Start button before
a job has run. -/
inductive UIEvent where
  | startValidation
  | modelValidated (m : PyStr)
  | modelError
  | uploadDocument
  deriving DecidableEq

/-- Transitions of the start gate, from src/main.py: `_validate_model` sets
the label to "Validating model..." (line 384); `_on_model_validated` sets
it to `"✓ {model} (validated)"` and enables Start (both branches of its
if); `_on_model_error` sets "✗ Validation failed" and does not touch the
button; a successful `_upload_document` enables Start exactly when
"validated" occurs in the lowered label text (lines 443-444). -/
def stepUI (st : UIState) : UIEvent → UIState
  | .startValidation => { st with statusText := "Validating model...".toList }
  | .modelValidated m =>
    { statusText := "✓ ".toList ++ m ++ " (validated)".toList, processEnabled := true }
  | .modelError => { st with statusText := "✗ Validation failed".toList }
  | .uploadDocument =>
    if pyContains "validated".toList (pyLower st.statusText) then
      { st with processEnabled := true }
    else st

/-- The UI state after a sequence of handler invocations from startup. -/
def runUI (evs : List UIEvent) : UIState :=
  evs.foldl stepUI initialUI

/-! ## Helper lemmas -/

theorem chunkScan_fst (lines : List PyStr) :
    ∀ cur, (chunkScan lines cur).1 =
      (headerGroups lines cur).map fun g => pyStrip (joinNL g) := by
  induction lines with
  | nil =>
    intro cur
    by_cases h : cur.isEmpty <;> simp [chunkScan, headerGroups, h]
  | cons line rest ih =>
    intro cur
    by_cases h : isHeaderLine line
    · by_cases hc : cur.isEmpty <;>
        simp [chunkScan, headerGroups, h, hc, ih]
    · simp [chunkScan, headerGroups, h, ih]

theorem chunkScan_snd (lines : List PyStr) :
    ∀ cur, (chunkScan lines cur).2 = lines.any isHeaderLine := by
  induction lines with
  | nil => intro cur; simp [chunkScan]
  | cons line rest ih =>
    intro cur
    by_cases h : isHeaderLine line <;> simp [chunkScan, h, ih]

theorem headerGroups_join (lines : List PyStr) :
    ∀ cur, (headerGroups lines cur).flatten = cur ++ lines := by
  induction lines with
  | nil =>
    intro cur
    by_cases h : cur.isEmpty
    · simp [headerGroups, h, List.isEmpty_iff.mp h]
    · simp [headerGroups, h]
  | cons line rest ih =>
    intro cur
    by_cases h : isHeaderLine line
    · by_cases hc : cur.isEmpty
      · simp [headerGroups, h, hc, ih, List.isEmpty_iff.mp hc]
      · simp [headerGroups, h, hc, ih]
    · simp [headerGroups, h, ih]

theorem pyOr_self (c : PyStr) : pyOr c c = c := by
  unfold pyOr; split <;> rfl

theorem pyOr_ne_nil (a : PyStr) {b : PyStr} (hb : b ≠ []) : pyOr a b ≠ [] := by
  unfold pyOr
  split
  · exact hb
  · intro hEq
    rename_i h
    exact h (by simp [hEq])

theorem pyStartsWith_single (a : Char) (s : PyStr) :
    pyStartsWith [a] s = true ↔ ∃ r, s = a :: r := by
  cases s with
  | nil => simp [pyStartsWith]
  | cons c cs =>
    simp only [pyStartsWith, Bool.and_true, beq_iff_eq]
    constructor
    · rintro rfl; exact ⟨cs, rfl⟩
    · rintro ⟨r, hr⟩
      injection hr with h1 _
      exact h1.symm

theorem headerGroups_head (lines : List PyStr) :
    ∀ h0 curtl g, isHeaderLine h0 = true →
      g ∈ headerGroups lines (h0 :: curtl) →
      ∃ h2 t2, g = h2 :: t2 ∧ isHeaderLine h2 = true := by
  induction lines with
  | nil =>
    intro h0 curtl g hh hg
    simp [headerGroups] at hg
    exact ⟨h0, curtl, hg, hh⟩
  | cons line rest ih =>
    intro h0 curtl g hh hg
    by_cases hl : isHeaderLine line
    · simp [headerGroups, hl] at hg
      rcases hg with hg | hg
      · exact ⟨h0, curtl, hg, hh⟩
      · exact ih line [] g hl hg
    · rw [headerGroups, if_neg (by simp [hl])] at hg
      exact ih h0 (curtl ++ [line]) g hh (by simpa using hg)

theorem flatten_piece (piece : PyStr) (X : List PyStr) :
    ((if piece.isEmpty then [] else [piece]) ++ X).flatten = piece ++ X.flatten := by
  by_cases hp : piece.isEmpty
  · simp [hp, List.isEmpty_iff.mp hp]
  · simp [hp]

theorem flatten_if (piece : PyStr) :
    (if piece = [] then ([] : List PyStr) else [piece]).flatten = piece := by
  by_cases hp : piece = [] <;> simp [hp]

theorem streamParts_flatten_nostop (stop : Nat → Bool) (hstop : ∀ t, stop t = false) :
    ∀ lines t, (streamParts stop t lines).flatten = (fragmentsUntilDone lines).flatten := by
  intro lines
  induction lines with
  | nil => intro t; simp [streamParts, fragmentsUntilDone]
  | cons l rest ih =>
    intro t
    cases l with
    | none => simp [streamParts, fragmentsUntilDone, hstop t, ih]
    | some pd =>
      obtain ⟨piece, done⟩ := pd
      cases done with
      | true => simp [streamParts, fragmentsUntilDone, hstop t, flatten_piece, flatten_if]
      | false => simp [streamParts, fragmentsUntilDone, hstop t, flatten_piece, flatten_if, ih]

theorem streamParts_stops_at_done (stop : Nat → Bool) (hstop : ∀ t, stop t = false) :
    ∀ pre, (∀ p d, some (p, d) ∈ pre → d = false) →
      ∀ t piece rest,
        streamParts stop t (pre ++ some (piece, true) :: rest) =
        streamParts stop t (pre ++ [some (piece, true)]) := by
  intro pre
  induction pre with
  | nil =>
    intro _ t piece rest
    simp [streamParts, hstop t]
  | cons l pre ih =>
    intro hpre t piece rest
    cases l with
    | none =>
      simp only [List.cons_append, streamParts, hstop t, if_false, Bool.false_eq_true]
      exact ih (fun p d hm => hpre p d (List.mem_cons_of_mem _ hm)) (t + 1) piece rest
    | some pd =>
      obtain ⟨p, d⟩ := pd
      have hd : d = false := hpre p d (List.mem_cons_self _ _)
      subst hd
      simp only [List.cons_append, streamParts, hstop t, if_false, Bool.false_eq_true]
      have h2 := ih (fun p2 d2 hm => hpre p2 d2 (List.mem_cons_of_mem _ hm)) (t + 1) piece rest
      exact congrArg (fun X => (if List.isEmpty p = true then ([] : List PyStr) else [p]) ++ X) h2

theorem runLoop_nostop (resp : Nat → BackendResp) (stopAt : Nat → Bool)
    (stopLine : Nat → Nat → Bool) (total : Nat) (hstop : ∀ k, stopAt k = false) :
    ∀ cs k out, runLoop resp stopAt stopLine total cs k out =
      (out ++ outsFrom resp stopLine cs k, evsFrom resp stopLine total cs k) := by
  intro cs
  induction cs with
  | nil => intro k out; simp [runLoop, outsFrom, evsFrom]
  | cons c rest ih =>
    intro k out
    cases hr : resp k with
    | ok ls => simp [runLoop, hstop k, hr, outsFrom, evsFrom, procOne, ih]
    | error e => simp [runLoop, hstop k, hr, outsFrom, evsFrom, procOne, ih]

theorem outsFrom_length (resp : Nat → BackendResp) (stopLine : Nat → Nat → Bool) :
    ∀ cs k, (outsFrom resp stopLine cs k).length = cs.length := by
  intro cs
  induction cs with
  | nil => intro k; rfl
  | cons c rest ih => intro k; simp [outsFrom, ih]

theorem outsFrom_getElem? (resp : Nat → BackendResp) (stopLine : Nat → Nat → Bool) :
    ∀ cs k i, (outsFrom resp stopLine cs k)[i]? =
      cs[i]?.map fun c => procOne resp stopLine (k + i) c := by
  intro cs
  induction cs with
  | nil => intro k i; simp [outsFrom]
  | cons c rest ih =>
    intro k i
    cases i with
    | zero => simp [outsFrom]
    | succ n =>
      simp only [outsFrom, List.getElem?_cons_succ]
      rw [ih (k + 1) n]
      have : k + 1 + n = k + (n + 1) := by omega
      rw [this]

theorem finished_not_mem_evsFrom (resp : Nat → BackendResp)
    (stopLine : Nat → Nat → Bool) (total : Nat) :
    ∀ cs k o, WEvent.finished o ∉ evsFrom resp stopLine total cs k := by
  intro cs
  induction cs with
  | nil => intro k o; simp [evsFrom]
  | cons c rest ih =>
    intro k o
    cases hr : resp k <;> simp [evsFrom, hr, ih]

theorem evsFrom_mem_error (resp : Nat → BackendResp) (stopLine : Nat → Nat → Bool)
    (total : Nat) (e : PyStr) :
    ∀ cs k j, j < cs.length → resp (k + j) = Except.error e →
      WEvent.errorOccurred (k + j + 1) e ∈ evsFrom resp stopLine total cs k := by
  intro cs
  induction cs with
  | nil => intro k j hj _; simp at hj
  | cons c rest ih =>
    intro k j hj he
    cases j with
    | zero =>
      simp only [Nat.add_zero] at he
      simp [evsFrom, he]
    | succ n =>
      have hlt : n < rest.length := by simpa using Nat.lt_of_succ_lt_succ (by simpa using hj)
      have he2 : resp (k + 1 + n) = Except.error e := by
        rw [show k + 1 + n = k + (n + 1) by omega]; exact he
      have hmem := ih (k + 1) n hlt he2
      rw [show k + (n + 1) + 1 = k + 1 + n + 1 by omega]
      rw [evsFrom]
      exact List.mem_append_right _ hmem

theorem evsFrom_mem_progress (resp : Nat → BackendResp) (stopLine : Nat → Nat → Bool)
    (total : Nat) :
    ∀ cs k j, j < cs.length →
      WEvent.progress (k + j + 1) total ∈ evsFrom resp stopLine total cs k := by
  intro cs
  induction cs with
  | nil => intro k j hj; simp at hj
  | cons c rest ih =>
    intro k j hj
    cases j with
    | zero => cases hr : resp k <;> simp [evsFrom, hr]
    | succ n =>
      have hlt : n < rest.length := by simpa using Nat.lt_of_succ_lt_succ (by simpa using hj)
      have hmem := ih (k + 1) n hlt
      rw [show k + (n + 1) + 1 = k + 1 + n + 1 by omega]
      rw [evsFrom]
      exact List.mem_append_right _ hmem

theorem progressPairs_runLoop (resp : Nat → BackendResp) (stopAt : Nat → Bool)
    (stopLine : Nat → Nat → Bool) (total : Nat) :
    ∀ cs k out, progressPairs (runLoop resp stopAt stopLine total cs k out).2 =
      (List.range (procCount stopAt cs k)).map fun j => (k + j + 1, total) := by
  intro cs
  induction cs with
  | nil => intro k out; simp [runLoop, progressPairs, procCount]
  | cons c rest ih =>
    intro k out
    by_cases hs : stopAt k
    · simp [runLoop, hs, progressPairs, procCount]
    · have step : ∀ n, (k + 1, total) :: ((List.range n).map fun j => (k + 1 + j + 1, total)) =
          (List.range (n + 1)).map fun j => (k + j + 1, total) := by
        intro n
        rw [List.range_succ_eq_map, List.map_cons, List.map_map]
        refine congrArg₂ _ (by simp) ?_
        exact (List.map_congr_left fun j _ => by simp [Function.comp]; omega).symm
      cases hr : resp k with
      | ok ls =>
        simp only [runLoop, hs, if_false, Bool.false_eq_true, hr, progressPairs,
          List.filterMap_cons, procCount]
        rw [← progressPairs, ih (k + 1) _, step]
      | error e =>
        simp only [runLoop, hs, if_false, Bool.false_eq_true, hr, progressPairs,
          List.filterMap_cons, procCount]
        rw [← progressPairs, ih (k + 1) _, step]

theorem runLoop_fst_length (resp : Nat → BackendResp) (stopAt : Nat → Bool)
    (stopLine : Nat → Nat → Bool) (total : Nat) :
    ∀ cs k out, (runLoop resp stopAt stopLine total cs k out).1.length =
      out.length + procCount stopAt cs k := by
  intro cs
  induction cs with
  | nil => intro k out; simp [runLoop, procCount]
  | cons c rest ih =>
    intro k out
    by_cases hs : stopAt k
    · simp [runLoop, hs, procCount]
    · cases hr : resp k with
      | ok ls => simp [runLoop, hs, hr, procCount, ih]; omega
      | error e => simp [runLoop, hs, hr, procCount, ih]; omega

theorem procCount_le_length (stopAt : Nat → Bool) :
    ∀ cs : List PyStr, ∀ k, procCount stopAt cs k ≤ cs.length := by
  intro cs
  induction cs with
  | nil => intro k; simp [procCount]
  | cons c rest ih =>
    intro k
    by_cases hs : stopAt k <;> simp [procCount, hs]
    exact ih (k + 1)

theorem procCount_le_of_stop (stopAt : Nat → Bool)
    (hmono : ∀ j j2, j ≤ j2 → stopAt j = true → stopAt j2 = true)
    (m : Nat) (hm : stopAt m = true) :
    ∀ cs : List PyStr, ∀ k, procCount stopAt cs k ≤ m - k := by
  intro cs
  induction cs with
  | nil => intro k; simp [procCount]
  | cons c rest ih =>
    intro k
    by_cases hs : stopAt k
    · simp [procCount, hs]
    · have hkm : k < m := by
        by_contra hcon
        exact hs (hmono m k (by omega) hm)
      have := ih (k + 1)
      simp only [procCount, hs, if_false, Bool.false_eq_true]
      omega

theorem processedPairs_runLoop_length (resp : Nat → BackendResp) (stopAt : Nat → Bool)
    (stopLine : Nat → Nat → Bool) (total : Nat) :
    ∀ cs k out, (processedPairs (runLoop resp stopAt stopLine total cs k out).2).length =
      procCount stopAt cs k := by
  intro cs
  induction cs with
  | nil => intro k out; simp [runLoop, processedPairs, procCount]
  | cons c rest ih =>
    intro k out
    by_cases hs : stopAt k
    · simp [runLoop, hs, processedPairs, procCount]
    · cases hr : resp k with
      | ok ls =>
        simp only [runLoop, hs, if_false, Bool.false_eq_true, hr, processedPairs,
          List.filterMap_cons, procCount, List.length_cons]
        rw [← processedPairs, ih (k + 1) _]
      | error e =>
        simp only [runLoop, hs, if_false, Bool.false_eq_true, hr, processedPairs,
          List.filterMap_cons, procCount, List.length_cons]
        rw [← processedPairs, ih (k + 1) _]

theorem progressPairs_runWorker (resp : Nat → BackendResp) (stopAt : Nat → Bool)
    (stopLine : Nat → Nat → Bool) (chunks : List PyStr) :
    progressPairs (runWorker resp stopAt stopLine chunks) =
      (List.range (procCount stopAt chunks 0)).map fun j => (j + 1, chunks.length) := by
  have h2 : progressPairs (runWorker resp stopAt stopLine chunks) =
      progressPairs (runLoop resp stopAt stopLine chunks.length chunks 0 []).2 := by
    unfold runWorker progressPairs
    rw [List.filterMap_append]
    simp
  rw [h2, progressPairs_runLoop resp stopAt stopLine chunks.length chunks 0 []]
  exact List.map_congr_left fun j _ => by simp

theorem processedPairs_runWorker_length (resp : Nat → BackendResp) (stopAt : Nat → Bool)
    (stopLine : Nat → Nat → Bool) (chunks : List PyStr) :
    (processedPairs (runWorker resp stopAt stopLine chunks)).length =
      procCount stopAt chunks 0 := by
  have h2 : processedPairs (runWorker resp stopAt stopLine chunks) =
      processedPairs (runLoop resp stopAt stopLine chunks.length chunks 0 []).2 := by
    unfold runWorker processedPairs
    rw [List.filterMap_append]
    simp
  rw [h2, processedPairs_runLoop_length resp stopAt stopLine chunks.length chunks 0 []]

theorem runLoop_nostop_pair (resp : Nat → BackendResp) (stopAt : Nat → Bool)
    (stopLine : Nat → Nat → Bool) (chunks : List PyStr) (hstop : ∀ k, stopAt k = false) :
    runLoop resp stopAt stopLine chunks.length chunks 0 [] =
      (outsFrom resp stopLine chunks 0, evsFrom resp stopLine chunks.length chunks 0) := by
  simpa using runLoop_nostop resp stopAt stopLine chunks.length hstop chunks 0 []

theorem runWorker_nostop (resp : Nat → BackendResp) (stopAt : Nat → Bool)
    (stopLine : Nat → Nat → Bool) (chunks : List PyStr) (hstop : ∀ k, stopAt k = false) :
    runWorker resp stopAt stopLine chunks =
      evsFrom resp stopLine chunks.length chunks 0 ++
        [WEvent.finished (outsFrom resp stopLine chunks 0)] := by
  unfold runWorker
  rw [runLoop_nostop_pair resp stopAt stopLine chunks hstop]

/-! ## Claims -/

/-- Claim C5: for input texts containing no header line, the chunker returns
exactly one chunk equal to the trimmed input text; if the input is empty or
whitespace-only it returns the empty sequence. -/
theorem no_header_single_chunk (text : PyStr)
    (hnh : ∀ l ∈ pySplit '\n' text, isHeaderLine l = false) :
    (pyStrip text ≠ [] → chunk_text text = [pyStrip text]) ∧
    (pyStrip text = [] → chunk_text text = []) := by
  have hany : (pySplit '\n' text).any isHeaderLine = false := by
    rw [List.any_eq_false]
    intro l hl
    simp [hnh l hl]
  have hfound : (chunkScan (pySplit '\n' text) []).2 = false := by
    rw [chunkScan_snd]; exact hany
  constructor
  · intro hne
    simp [chunk_text, hfound, hne]
  · intro he
    simp [chunk_text, hfound, he]

/-- Claim C5 witness: the spec example `"plain text, no headers"` has no
header line and yields exactly that text, trimmed, as the single chunk. -/
theorem no_header_single_chunk_witness :
    (∀ l ∈ pySplit '\n' "plain text, no headers".toList, isHeaderLine l = false) ∧
    ((pyStrip "plain text, no headers".toList ≠ [] →
        chunk_text "plain text, no headers".toList = [pyStrip "plain text, no headers".toList]) ∧
      (pyStrip "plain text, no headers".toList = [] →
        chunk_text "plain text, no headers".toList = [])) :=
  ⟨by decide, no_header_single_chunk _ (by decide)⟩

/-- Claim C4 counterexample: the input `"# A\nhello "` contains a header
line, yet the concatenated output chunks do not reproduce the original line
sequence modulo dropped empty chunks: the output line `"hello"` (note the
trimmed trailing blank) occurs in no position of the original line
sequence, so the original lines cannot be recovered by deleting dropped
chunks alone. -/
theorem chunker_reassembly_counterexample :
    (pySplit '\n' "# A\nhello ".toList).any isHeaderLine = true ∧
    chunk_text "# A\nhello ".toList = ["# A\nhello".toList] ∧
    "hello".toList ∈ linesOfChunks (chunk_text "# A\nhello ".toList) ∧
    "hello".toList ∉ pySplit '\n' "# A\nhello ".toList := by decide

/-- Claim C4 (amended): for input texts containing at least one header line,
the chunker partitions the original line sequence into contiguous groups,
in order, and the output chunks are exactly the whitespace-trimmed
newline-joins of those groups with the empty-after-trimming chunks removed;
so concatenation reproduces the original line sequence modulo the removal
of empty chunks and the trimming of whitespace at each chunk boundary. -/
theorem chunker_reassembly (text : PyStr)
    (hh : (pySplit '\n' text).any isHeaderLine = true) :
    ∃ groups : List (List PyStr),
      groups.flatten = pySplit '\n' text ∧
      chunk_text text =
        (groups.map fun g => pyStrip (joinNL g)).filter fun c => !(pyStrip c).isEmpty := by
  refine ⟨headerGroups (pySplit '\n' text) [], ?_, ?_⟩
  · simpa using headerGroups_join (pySplit '\n' text) []
  · have hfound : (chunkScan (pySplit '\n' text) []).2 = true := by
      rw [chunkScan_snd]; exact hh
    simp [chunk_text, hfound, chunkScan_fst]

/-- Claim C4 witness: the amended reassembly property at the concrete input
`"# T\nbody"`. -/
theorem chunker_reassembly_witness :
    (pySplit '\n' "# T\nbody".toList).any isHeaderLine = true ∧
    (∃ groups : List (List PyStr),
      groups.flatten = pySplit '\n' "# T\nbody".toList ∧
      chunk_text "# T\nbody".toList =
        (groups.map fun g => pyStrip (joinNL g)).filter fun c => !(pyStrip c).isEmpty) :=
  ⟨by decide, chunker_reassembly _ (by decide)⟩

/-- Claim C6: a line is classified as a header exactly when its trimmed form
starts with `'#'` and is not exactly `"#"`; every chunk group opened at a
header line begins with a header line; and the spec example
`"# A\nhello\n# B\nworld"` chunks to `["# A\nhello", "# B\nworld"]`. -/
theorem header_classification_and_example :
    (∀ line : PyStr,
        isHeaderLine line = true ↔
          ((∃ r, pyStrip line = '#' :: r) ∧ pyStrip line ≠ ['#'])) ∧
    (∀ lines : List PyStr, ∀ line g, isHeaderLine line = true →
        g ∈ headerGroups lines [line] →
        ∃ hd tl, g = hd :: tl ∧ isHeaderLine hd = true) ∧
    chunk_text "# A\nhello\n# B\nworld".toList =
      ["# A\nhello".toList, "# B\nworld".toList] := by
  refine ⟨?_, ?_, by decide⟩
  · intro line
    unfold isHeaderLine
    rw [Bool.and_eq_true]
    constructor
    · rintro ⟨h1, h2⟩
      exact ⟨(pyStartsWith_single '#' (pyStrip line)).mp h1, by simpa using h2⟩
    · rintro ⟨h1, h2⟩
      exact ⟨(pyStartsWith_single '#' (pyStrip line)).mpr h1, by simpa using h2⟩
  · intro lines line g hl hg
    exact headerGroups_head lines line [] g hl hg

/-- Claim C8: without cancellation, the per-chunk streaming result equals
the concatenation, in arrival order, of the incremental fragments up to and
including the one carrying the `done` flag, with surrounding whitespace
trimmed; and consumption stops at the first `done` fragment, so lines after
it never affect the result. -/
theorem stream_collects_until_done (stop : Nat → Bool) (lines : List LineObj)
    (hstop : ∀ t, stop t = false) :
    streamOllama stop lines = pyStrip (fragmentsUntilDone lines).flatten ∧
    (∀ pre piece rest, (∀ p d, some (p, d) ∈ pre → d = false) →
      streamOllama stop (pre ++ some (piece, true) :: rest) =
        streamOllama stop (pre ++ [some (piece, true)])) := by
  constructor
  · unfold streamOllama
    rw [streamParts_flatten_nostop stop hstop lines 0]
  · intro pre piece rest hpre
    unfold streamOllama
    rw [streamParts_stops_at_done stop hstop pre hpre 0 piece rest]

/-- Claim C8 witness: the streaming property at a concrete three-line
stream (a fragment, an unparsable line, a final `done` fragment). -/
theorem stream_collects_until_done_witness :
    (∀ t : Nat, (fun _ : Nat => false) t = false) ∧
    (streamOllama (fun _ => false)
        [some ("Hel".toList, false), none, some ("lo ".toList, true)] =
      pyStrip (fragmentsUntilDone
        [some ("Hel".toList, false), none, some ("lo ".toList, true)]).flatten ∧
    (∀ pre piece rest, (∀ p d, some (p, d) ∈ pre → d = false) →
      streamOllama (fun _ => false) (pre ++ some (piece, true) :: rest) =
        streamOllama (fun _ => false) (pre ++ [some (piece, true)]))) :=
  ⟨fun _ => rfl,
   stream_collects_until_done (fun _ => false)
     [some ("Hel".toList, false), none, some ("lo ".toList, true)] (fun _ => rfl)⟩

/-- Claim C2: when the worker runs with no cancellation, it emits exactly
one final result, whose length equals the number of input chunks and whose
entry at position `i` is the processing result of input chunk `i` (order
preserved, no chunk dropped). -/
theorem finished_output_matches_input (resp : Nat → BackendResp)
    (stopAt : Nat → Bool) (stopLine : Nat → Nat → Bool) (chunks : List PyStr)
    (hstop : ∀ k, stopAt k = false) :
    ∃ out : List PyStr,
      WEvent.finished out ∈ runWorker resp stopAt stopLine chunks ∧
      (∀ out2, WEvent.finished out2 ∈ runWorker resp stopAt stopLine chunks → out2 = out) ∧
      out.length = chunks.length ∧
      ∀ i : Nat, out[i]? = chunks[i]?.map fun c => procOne resp stopLine i c := by
  have hrun := runWorker_nostop resp stopAt stopLine chunks hstop
  refine ⟨outsFrom resp stopLine chunks 0, ?_, ?_, ?_, ?_⟩
  · rw [hrun]
    exact List.mem_append_right _ (by simp)
  · intro out2 h2
    rw [hrun] at h2
    rcases List.mem_append.mp h2 with h | h
    · exact absurd h (finished_not_mem_evsFrom resp stopLine chunks.length chunks 0 out2)
    · simpa using h
  · rw [outsFrom_length]
  · intro i
    rw [outsFrom_getElem?]
    simp

/-- Claim C2 witness: a two-chunk run with no cancellation, one chunk
succeeding and one failing. -/
theorem finished_output_matches_input_witness :
    (∀ k : Nat, (fun _ : Nat => false) k = false) ∧
    (∃ out : List PyStr,
      WEvent.finished out ∈
        runWorker (fun k => if k == 0 then Except.ok [some ("ok".toList, true)] else Except.error "boom".toList)
          (fun _ => false) (fun _ _ => false) ["a".toList, "b".toList] ∧
      (∀ out2, WEvent.finished out2 ∈
        runWorker (fun k => if k == 0 then Except.ok [some ("ok".toList, true)] else Except.error "boom".toList)
          (fun _ => false) (fun _ _ => false) ["a".toList, "b".toList] → out2 = out) ∧
      out.length = (["a".toList, "b".toList] : List PyStr).length ∧
      ∀ i : Nat, out[i]? = (["a".toList, "b".toList] : List PyStr)[i]?.map fun c =>
        procOne (fun k => if k == 0 then Except.ok [some ("ok".toList, true)] else Except.error "boom".toList)
          (fun _ _ => false) i c) :=
  ⟨fun _ => rfl,
   finished_output_matches_input _ _ _ _ (fun _ => rfl)⟩

/-- Claim C3: when the backend call for chunk `i` raises, the final output
at position `i` equals the original input chunk verbatim, a per-chunk error
for chunk `i+1` (1-based) is emitted, and the job is not aborted: the
output still covers every chunk and the next chunk still reports progress. -/
theorem chunk_failure_fallback (resp : Nat → BackendResp) (stopAt : Nat → Bool)
    (stopLine : Nat → Nat → Bool) (chunks : List PyStr) (i : Nat) (e : PyStr)
    (hstop : ∀ k, stopAt k = false) (hi : i < chunks.length)
    (he : resp i = Except.error e) :
    ∃ out : List PyStr,
      WEvent.finished out ∈ runWorker resp stopAt stopLine chunks ∧
      out.length = chunks.length ∧
      out[i]? = chunks[i]? ∧
      WEvent.errorOccurred (i + 1) e ∈ runWorker resp stopAt stopLine chunks ∧
      (i + 1 < chunks.length →
        WEvent.progress (i + 2) chunks.length ∈ runWorker resp stopAt stopLine chunks) := by
  have hrun := runWorker_nostop resp stopAt stopLine chunks hstop
  refine ⟨outsFrom resp stopLine chunks 0, ?_, ?_, ?_, ?_, ?_⟩
  · rw [hrun]
    exact List.mem_append_right _ (by simp)
  · rw [outsFrom_length]
  · rw [outsFrom_getElem?]
    have hc : chunks[i]? = some chunks[i] := List.getElem?_eq_getElem hi
    rw [hc]
    simp [procOne, he, pyOr_self]
  · rw [hrun]
    refine List.mem_append_left _ ?_
    have := evsFrom_mem_error resp stopLine chunks.length e chunks 0 i hi (by simpa using he)
    simpa using this
  · intro hi2
    rw [hrun]
    refine List.mem_append_left _ ?_
    have := evsFrom_mem_progress resp stopLine chunks.length chunks 0 (i + 1) hi2
    simpa [Nat.add_assoc] using this

/-- Claim C3 witness: the spec example, a chunk whose backend call raises a
network timeout; the output equals the original chunk and an error for that
chunk index is recorded. -/
theorem chunk_failure_fallback_witness :
    (∀ k : Nat, (fun _ : Nat => false) k = false) ∧
    0 < (["Sarah went to Paris".toList] : List PyStr).length ∧
    (fun _ : Nat => (Except.error "timeout".toList : BackendResp)) 0 =
      Except.error "timeout".toList ∧
    (∃ out : List PyStr,
      WEvent.finished out ∈
        runWorker (fun _ => Except.error "timeout".toList) (fun _ => false)
          (fun _ _ => false) ["Sarah went to Paris".toList] ∧
      out.length = (["Sarah went to Paris".toList] : List PyStr).length ∧
      out[0]? = (["Sarah went to Paris".toList] : List PyStr)[0]? ∧
      WEvent.errorOccurred 1 "timeout".toList ∈
        runWorker (fun _ => Except.error "timeout".toList) (fun _ => false)
          (fun _ _ => false) ["Sarah went to Paris".toList] ∧
      (0 + 1 < (["Sarah went to Paris".toList] : List PyStr).length →
        WEvent.progress (0 + 2) (["Sarah went to Paris".toList] : List PyStr).length ∈
          runWorker (fun _ => Except.error "timeout".toList) (fun _ => false)
            (fun _ _ => false) ["Sarah went to Paris".toList])) :=
  ⟨fun _ => rfl, by decide, rfl,
   chunk_failure_fallback _ _ _ _ 0 _ (fun _ => rfl) (by decide) rfl⟩

/-- Claim C10: if the backend call for chunk `i` succeeds but the trimmed
collected response text is empty, the worker's output at position `i` is
the original input chunk, not the empty string; and in a completed run no
output position with a non-empty input chunk is ever the empty string. -/
theorem empty_response_fallback (resp : Nat → BackendResp) (stopAt : Nat → Bool)
    (stopLine : Nat → Nat → Bool) (chunks : List PyStr) (i : Nat) (ls : List LineObj)
    (hstop : ∀ k, stopAt k = false)
    (hok : resp i = Except.ok ls)
    (hempty : streamOllama (stopLine i) ls = []) :
    ∃ out : List PyStr,
      WEvent.finished out ∈ runWorker resp stopAt stopLine chunks ∧
      out[i]? = chunks[i]? ∧
      (∀ (j : Nat) (c : PyStr), chunks[j]? = some c → c ≠ [] →
        ∃ o, out[j]? = some o ∧ o ≠ []) := by
  have hrun := runWorker_nostop resp stopAt stopLine chunks hstop
  refine ⟨outsFrom resp stopLine chunks 0, ?_, ?_, ?_⟩
  · rw [hrun]
    exact List.mem_append_right _ (by simp)
  · rw [outsFrom_getElem?]
    cases hc : chunks[i]? with
    | none => rfl
    | some c => simp [procOne, hok, hempty, pyOr]
  · intro j c hc hcne
    rw [outsFrom_getElem?, hc]
    refine ⟨procOne resp stopLine (0 + j) c, rfl, ?_⟩
    unfold procOne
    cases resp (0 + j) with
    | ok ls2 => exact pyOr_ne_nil _ hcne
    | error e2 => exact pyOr_ne_nil _ hcne

/-- Claim C10 witness: a stream whose only fragment is whitespace, so the
trimmed collected text is empty; the original chunk is emitted instead. -/
theorem empty_response_fallback_witness :
    (∀ k : Nat, (fun _ : Nat => false) k = false) ∧
    (fun _ : Nat => (Except.ok [some ("  ".toList, true)] : BackendResp)) 0 =
      Except.ok [some ("  ".toList, true)] ∧
    streamOllama ((fun _ _ => false) 0) [some ("  ".toList, true)] = [] ∧
    (∃ out : List PyStr,
      WEvent.finished out ∈
        runWorker (fun _ => Except.ok [some ("  ".toList, true)]) (fun _ => false)
          (fun _ _ => false) ["Bob".toList] ∧
      out[0]? = (["Bob".toList] : List PyStr)[0]? ∧
      (∀ (j : Nat) (c : PyStr), (["Bob".toList] : List PyStr)[j]? = some c → c ≠ [] →
        ∃ o, out[j]? = some o ∧ o ≠ [])) :=
  ⟨fun _ => rfl, rfl, by decide,
   empty_response_fallback _ _ _ _ 0 _ (fun _ => rfl) rfl (by decide)⟩

/-- Claim C7: the worker reports progress as `(completed, total)` pairs, one
after every processed chunk (whether it succeeded or fell back); the
reported completed-counts are strictly increasing and never exceed the
total, and every reported total is the input chunk count. -/
theorem progress_reports_monotone (resp : Nat → BackendResp) (stopAt : Nat → Bool)
    (stopLine : Nat → Nat → Bool) (chunks : List PyStr) :
    progressPairs (runWorker resp stopAt stopLine chunks) =
      (List.range (procCount stopAt chunks 0)).map (fun j => (j + 1, chunks.length)) ∧
    (progressPairs (runWorker resp stopAt stopLine chunks)).length =
      (processedPairs (runWorker resp stopAt stopLine chunks)).length ∧
    List.Chain' (· < ·)
      ((progressPairs (runWorker resp stopAt stopLine chunks)).map Prod.fst) ∧
    (∀ p ∈ progressPairs (runWorker resp stopAt stopLine chunks),
      p.1 ≤ chunks.length ∧ p.2 = chunks.length) := by
  have hpp := progressPairs_runWorker resp stopAt stopLine chunks
  have hn := procCount_le_length stopAt chunks 0
  refine ⟨hpp, ?_, ?_, ?_⟩
  · rw [hpp, processedPairs_runWorker_length]
    simp
  · rw [hpp, List.map_map]
    have hfst : (Prod.fst ∘ fun j => (j + 1, chunks.length)) = fun j : Nat => j + 1 := rfl
    rw [hfst]
    refine List.Pairwise.chain' ?_
    exact (List.pairwise_lt_range _).map _ fun a b hab => by omega
  · intro p hp
    rw [hpp] at hp
    obtain ⟨j, hj, hje⟩ := List.mem_map.mp hp
    have hjr := List.mem_range.mp hj
    cases hje
    exact ⟨by omega, rfl⟩

/-- Claim C1 counterexample: a job cancelled before any chunk completes
(the stop flag observed set at the very first check) nevertheless emits a
`finished` completion result, carrying the empty output list — contradicting
the claim that a cancelled job never emits a completion result. -/
theorem cancel_no_finished_counterexample :
    (fun _ : Nat => true) 0 = true ∧
    runWorker (fun _ => Except.error []) (fun _ => true) (fun _ _ => false)
      [['a']] = [WEvent.finished []] :=
  ⟨rfl, rfl⟩

/-- Claim C1 (amended): once the sticky stop flag is observed (set at check
`m` and at every later check), the worker processes no chunk beyond index
`m` — no progress report exceeds `m` and at most `m` outputs accumulate —
but it still emits a `finished` result carrying the partial outputs;
cancelling before any chunk completes yields `finished` with the empty
output list rather than no completion signal. -/
theorem cancel_still_emits_finished (resp : Nat → BackendResp) (stopAt : Nat → Bool)
    (stopLine : Nat → Nat → Bool) (chunks : List PyStr) (m : Nat)
    (hmono : ∀ j j2, j ≤ j2 → stopAt j = true → stopAt j2 = true)
    (hm : stopAt m = true) :
    (∀ c t, WEvent.progress c t ∈ runWorker resp stopAt stopLine chunks → c ≤ m) ∧
    (∃ out : List PyStr,
      WEvent.finished out ∈ runWorker resp stopAt stopLine chunks ∧ out.length ≤ m) ∧
    (stopAt 0 = true → runWorker resp stopAt stopLine chunks = [WEvent.finished []]) := by
  have hcount : procCount stopAt chunks 0 ≤ m := by
    have := procCount_le_of_stop stopAt hmono m hm chunks 0
    omega
  refine ⟨?_, ?_, ?_⟩
  · intro c t hc
    have hmemPairs : (c, t) ∈ progressPairs (runWorker resp stopAt stopLine chunks) :=
      List.mem_filterMap.mpr ⟨WEvent.progress c t, hc, rfl⟩
    rw [progressPairs_runWorker] at hmemPairs
    obtain ⟨j, hj, hje⟩ := List.mem_map.mp hmemPairs
    have hjr := List.mem_range.mp hj
    cases hje
    omega
  · refine ⟨(runLoop resp stopAt stopLine chunks.length chunks 0 []).1, ?_, ?_⟩
    · exact List.mem_append_right _ (by simp)
    · rw [runLoop_fst_length]
      simpa using hcount
  · intro h0
    cases chunks with
    | nil => rfl
    | cons c rest =>
      unfold runWorker
      simp [runLoop, h0]

/-- Claim C1 witness: the amended statement at a run whose stop flag is set
from the start. -/
theorem cancel_still_emits_finished_witness :
    (∀ j j2 : Nat, j ≤ j2 → (fun _ : Nat => true) j = true → (fun _ : Nat => true) j2 = true) ∧
    (fun _ : Nat => true) 0 = true ∧
    ((∀ c t, WEvent.progress c t ∈
        runWorker (fun _ => Except.error []) (fun _ => true) (fun _ _ => false)
          ["x".toList] → c ≤ 0) ∧
    (∃ out : List PyStr,
      WEvent.finished out ∈
        runWorker (fun _ => Except.error []) (fun _ => true) (fun _ _ => false)
          ["x".toList] ∧ out.length ≤ 0) ∧
    ((fun _ : Nat => true) 0 = true →
      runWorker (fun _ => Except.error []) (fun _ => true) (fun _ _ => false)
        ["x".toList] = [WEvent.finished []])) :=
  ⟨fun _ _ _ h => h, rfl,
   cancel_still_emits_finished _ _ _ _ 0 (fun _ _ _ h => h) rfl⟩

/-- Supporting facts about the validation worker: pre-flight validation
ignores the outcome of the cheap existence check (its absence or failure is
tolerated); the warm-up request is minimal (prompt `"ping"`, non-streamed,
generation budget 8 tokens) with a timeout more generous than the existence
check's; the `validated` signal is emitted only when the warm-up succeeds,
and a warm-up failure is emitted on the validation worker's own `error`
channel. -/
theorem validate_preflight (m : PyStr) (s1 s2 : ShowOutcome) (c1 c2 : Bool)
    (gen : Except PyStr Unit) :
    validateRun m s1 c1 c2 gen = validateRun m s2 c1 c2 gen ∧
    (∀ e, VEvent.error e ∈ validateRun m s1 c1 c2 gen → gen = Except.error e) ∧
    (VEvent.validated m ∈ validateRun m s1 c1 c2 gen →
      gen = Except.ok () ∧ c1 = false ∧ c2 = false) ∧
    (∀ e, gen = Except.error e → c1 = false →
      validateRun m s1 c1 c2 gen = [VEvent.error e]) ∧
    ((warmupRequest m).num_predict = 8 ∧ (warmupRequest m).stream = false ∧
      (warmupRequest m).prompt = "ping".toList ∧ showTimeout < warmupTimeout) := by
  refine ⟨rfl, ?_, ?_, ?_, ⟨rfl, rfl, rfl, by decide⟩⟩
  · intro e he
    unfold validateRun at he
    cases c1 with
    | true => simp at he
    | false =>
      cases gen with
      | error e2 => simpa using (by simpa using he : e = e2) ▸ rfl
      | ok u => cases c2 <;> simp at he
  · intro hv
    unfold validateRun at hv
    cases c1 with
    | true => simp at hv
    | false =>
      cases gen with
      | error e2 => simp at hv
      | ok u =>
        cases c2 with
        | true => simp at hv
        | false => exact ⟨rfl, rfl, rfl⟩
  · intro e hg hc1
    subst hg hc1
    rfl

/-- Claim C9: the start gate does not block as claimed.  In the fresh
startup state the Start button is disabled and no `validated` signal was
ever emitted, yet loading a document via `_upload_document` enables it,
because "validated" is a substring of the lowered initial label
"No model validated" (lines 443-444 against the label of line 276); and a
subsequent failed validation leaves the button enabled, so a validation
failure does not prevent the main anonymization job from starting.  The
gating condition itself shows the intent to enable only after a successful
validation, so this is a slip in the code rather than in the claim. -/
theorem validate_gate_code_bug :
    initialUI.processEnabled = false ∧
    pyContains "validated".toList (pyLower initialUI.statusText) = true ∧
    (runUI [UIEvent.uploadDocument]).processEnabled = true ∧
    (runUI [UIEvent.uploadDocument, UIEvent.startValidation,
      UIEvent.modelError]).processEnabled = true ∧
    (runUI [UIEvent.startValidation, UIEvent.modelError]).processEnabled = false := by
  decide
